import Mathlib

/-!
Verification of the ordsearch crate (src/src/lib.rs): an Eytzinger-layout
ordered collection with a branch-free successor search (find_gte).

The buffer of the OrderedCollection is modelled as a Lean List, raw memory
writes during construction as a function Nat → Option α (none = uninitialized
slot), and the usize arithmetic of the prefetch computation as Nat with an
explicit % 2^64 where the source can overflow.  Fallible steps (the
iterator's next().unwrap(), reading a possibly uninitialized slot after
set_len) return Option.
-/

section Defs

variable {α : Type*} [LinearOrder α] [DecidableEq α]

/-- Index sequence of the in-order (left, self, right) traversal of the
implicit binary tree on indices 0, 1, 2, ... where node i has children
2*i+1 and 2*i+2, truncated to indices below cap.  This is the visit order
of eytzinger_walk (src/src/lib.rs lines 171-196). -/
def inorderIdx (cap : Nat) (i : Nat) : List Nat :=
  if _h : i < cap then
    inorderIdx cap (2 * i + 1) ++ i :: inorderIdx cap (2 * i + 2)
  else []
termination_by cap - i
decreasing_by
  all_goals omega

/-- j lies in the subtree rooted at i (in the implicit tree with children
2*i+1 and 2*i+2). -/
inductive InTree : Nat → Nat → Prop where
  | refl (i : Nat) : InTree i i
  | left {i j : Nat} : InTree (2 * i + 1) j → InTree i j
  | right {i j : Nat} : InTree (2 * i + 2) j → InTree i j

/-- A raw write of value v at slot i of the partially initialized buffer:
models v.as_mut_ptr().add(i).write(value) in eytzinger_walk. -/
def setAt (buf : Nat → Option α) (i : Nat) (v : α) : Nat → Option α :=
  fun j => if j = i then some v else buf j

/-- Sequential raw writes: the k-th listed index receives the k-th value. -/
def writeZip (buf : Nat → Option α) : List Nat → List α → (Nat → Option α)
  | _, [] => buf
  | [], _ => buf
  | i :: is, v :: vs => writeZip (setAt buf i v) is vs

/-- Embedding of eytzinger_walk (src/src/lib.rs lines 171-196): insert items
from the sorted iterator (here: the list input) into the buffer in complete
binary tree order.  Recursion stops when the index reaches the capacity.
The source's iter.next().unwrap() panics when the iterator is exhausted;
that path is modelled as none. -/
def eytzinger_walk (cap : Nat) (i : Nat) (input : List α) (buf : Nat → Option α) :
    Option (List α × (Nat → Option α)) :=
  if _h : i < cap then
    match eytzinger_walk cap (2 * i + 1) input buf with
    | none => none
    | some (input1, buf1) =>
      match input1 with
      | [] => none
      | value :: rest => eytzinger_walk cap (2 * i + 2) rest (setAt buf1 i value)
  else some (input, buf)
termination_by cap - i
decreasing_by
  all_goals omega

/-- Embedding of OrderedCollection::from_sorted_iter (src/src/lib.rs lines
286-304): allocate capacity n, run eytzinger_walk from the root, then
set_len(n) and expose the n slots.  Reading the buffer back through mapM
returns none if any slot in [0, n) was left unwritten, modelling that
set_len must only be called once all n elements have been inserted. -/
def from_sorted_iter (input : List α) : Option (List α) :=
  match eytzinger_walk input.length 0 input (fun _ => none) with
  | none => none
  | some (_, buf) => (List.range input.length).mapM buf

/-- Number of trailing one bits: the source computes it on the final index
i as (!(i + 1)).trailing_zeros(), i.e. ctz of the bitwise complement
(src/src/lib.rs lines 416-419). -/
def trailingOnes (m : Nat) : Nat :=
  if h : m % 2 = 1 then trailingOnes (m / 2) + 1 else 0
termination_by m
decreasing_by
  omega

/-- Bit length of n (position of the highest set bit plus one); 0 for 0.
usize::leading_zeros of n is 64 minus this. -/
def bitLength (n : Nat) : Nat :=
  if h : n = 0 then 0 else bitLength (n / 2) + 1
termination_by n
decreasing_by
  omega

/-- usize::MAX on a 64-bit platform. -/
def usizeMax : Nat := 2 ^ 64 - 1

/-- Embedding of prefetch_mask (src/src/lib.rs lines 448-454):
usize::max_value() >> n.leading_zeros() for n > 0, and 0 for n = 0. -/
def prefetch_mask (n : Nat) : Nat :=
  if 0 < n then usizeMax >>> (64 - bitLength n) else 0

/-- MULTIPLIER (src/src/lib.rs line 220): 64 / size_of::<T>(), as a function
of the element size. -/
def MULTIPLIER (sz : Nat) : Nat := 64 / sz

/-- OFFSET (src/src/lib.rs line 236): MULTIPLIER + MULTIPLIER / 2. -/
def OFFSET (sz : Nat) : Nat := MULTIPLIER sz + MULTIPLIER sz / 2

/-- The value of 2usize.pow(64) computed by find_gte (src/src/lib.rs line
390) under release (wrapping) semantics: the mathematical value 2^64
wraps to 0. -/
def mulConst : Nat := 2 ^ 64 % 2 ^ 64

/-- The value of 2usize.pow(64) - 1 computed by find_gte (src/src/lib.rs
line 391) under release (wrapping) semantics: 0 wrapping-minus 1. -/
def mulOffConst : Nat := (2 ^ 64 % 2 ^ 64 + (2 ^ 64 - 1)) % 2 ^ 64

/-- 64 / 2 / size_of::<T>() (src/src/lib.rs line 392). -/
def cachlineOff (sz : Nat) : Nat := 64 / 2 / sz

/-- The index whose address is passed to do_prefetch at loop index i
(src/src/lib.rs line 396): (mul * i + mul_off + cachline_off).min(len - 1),
with the usize additions and multiplications taken mod 2^64 (release
semantics; with overflow checks the additions panic instead). -/
def prefetchIndex (sz len i : Nat) : Nat :=
  min (((mulConst * i % 2 ^ 64 + mulOffConst) % 2 ^ 64 + cachlineOff sz) % 2 ^ 64) (len - 1)

/-- do_prefetch (src/src/lib.rs lines 427-436): a pure hint with no
architectural effect on results; without the nightly feature it is an
empty function. -/
def do_prefetch (_addr : Nat) : Unit := ()

/-- The search loop of find_gte (src/src/lib.rs lines 394-414), as a tail
recursion on the index i.  Returns either Sum.inr value (the BRANCHLESS =
false early exit at an exact match) or Sum.inl i (the first out-of-range
index), together with the list of indices whose addresses were passed to
do_prefetch.  sz is size_of::<T>(). -/
def findLoop (sz : Nat) (PREFETCH BRANCHLESS : Bool) (items : List α) (x : α)
    (i : Nat) (trace : List Nat) : (Nat ⊕ α) × List Nat :=
  if h : i < items.length then
    let trace1 := if PREFETCH then trace ++ [prefetchIndex sz items.length i] else trace
    let value := items.get ⟨i, h⟩
    if BRANCHLESS = false ∧ value = x then (Sum.inr value, trace1)
    else
      findLoop sz PREFETCH BRANCHLESS items x
        (2 * i + 1 + if value < x then 1 else 0) trace1
  else (Sum.inl i, trace)
termination_by items.length - i
decreasing_by
  split <;> omega

/-- Embedding of the free-standing find_gte (src/src/lib.rs lines 377-425).
The first component is the Option return value; the second records the
prefetched indices (do_prefetch has no effect on results).  The source also
computes an unused prefetching_enabled flag and an unused mask on entry;
they are kept as dead bindings.  The final read get_unchecked(j - 1) is
modelled as a list lookup; j - 1 is proved to be in range whenever j ≠ 0. -/
def find_gte (sz : Nat) (PREFETCH BRANCHLESS : Bool) (items : List α) (x : α) :
    Option α × List Nat :=
  let _prefetching_enabled := decide (32768 ≤ items.length)
  let _mask := prefetch_mask items.length
  match findLoop sz PREFETCH BRANCHLESS items x 0 [] with
  | (Sum.inr value, trace) => (some value, trace)
  | (Sum.inl i, trace) =>
    let j := (i + 1) >>> (trailingOnes (i + 1) + 1)
    (if j = 0 then none else items.get? (j - 1), trace)

/-- OrderedCollection::find_gte (src/src/lib.rs lines 340-355): delegates to
find_gte::<_, true, true>. -/
def find_gte_pub (sz : Nat) (items : List α) (x : α) : Option α :=
  (find_gte sz true true items x).1

/-- choose_find_gte_fn (src/src/lib.rs lines 359-370): the data-dependent
choices are shadowed by prefetch = true and branchless = true, so the
(true, true) instantiation is always selected. -/
def choose_find_gte_fn (sz : Nat) (n : Nat) : List α → α → Option α × List Nat :=
  let _prefetch0 := decide (1024 * 32 ≤ n)
  let prefetch := true
  let branchless := true
  match prefetch, branchless with
  | true, true => find_gte sz true true
  | true, false => find_gte sz true false
  | false, true => find_gte sz false true
  | false, false => find_gte sz false false

/-- The final (first out-of-range) index of the branchless search loop,
without instrumentation: the value of i after the while loop of find_gte
when BRANCHLESS = true. -/
def loopFinal (items : List α) (x : α) (i : Nat) : Nat :=
  if h : i < items.length then
    loopFinal items x (2 * i + 1 + if items.get ⟨i, h⟩ < x then 1 else 0)
  else i
termination_by items.length - i
decreasing_by
  split <;> omega

/-- The number of iterations (one comparison of x against a stored value
each) the branchless search loop performs starting from index i. -/
def searchSteps (items : List α) (x : α) (i : Nat) : Nat :=
  if h : i < items.length then
    searchSteps items x (2 * i + 1 + if items.get ⟨i, h⟩ < x then 1 else 0) + 1
  else 0
termination_by items.length - i
decreasing_by
  split <;> omega

/-- The stored values of the subtree rooted at i, in in-order sequence. -/
def inorderVals (items : List α) (i : Nat) : List α :=
  (inorderIdx items.length i).filterMap (fun j => items.get? j)

/-- The raw buffer contents after eytzinger_walk has run from the root over
a fresh (fully uninitialized) allocation of capacity input.length. -/
def walkBuf (input : List α) : Nat → Option α :=
  writeZip (fun _ => none) (inorderIdx input.length 0) input

end Defs

section TreeLemmas

/-- Unfolding equation of inorderIdx at an in-range index. -/
theorem inorderIdx_of_lt {cap i : Nat} (h : i < cap) :
    inorderIdx cap i = inorderIdx cap (2 * i + 1) ++ i :: inorderIdx cap (2 * i + 2) := by
  rw [inorderIdx, dif_pos h]

/-- Unfolding equation of inorderIdx at an out-of-range index. -/
theorem inorderIdx_of_ge {cap i : Nat} (h : cap ≤ i) : inorderIdx cap i = [] := by
  rw [inorderIdx, dif_neg (by omega)]

/-- Induction principle following the implicit tree: to prove P of every
index it suffices to prove it for out-of-range indices and to propagate it
from the two children of each in-range index. -/
theorem tree_rec (n : Nat) {P : Nat → Prop} (base : ∀ i, n ≤ i → P i)
    (step : ∀ i, i < n → P (2 * i + 1) → P (2 * i + 2) → P i) : ∀ i, P i := by
  have key : ∀ d i, n - i ≤ d → P i := by
    intro d
    induction d with
    | zero => intro i hi; exact base i (by omega)
    | succ d ih =>
      intro i _hi
      by_cases h : i < n
      · exact step i h (ih _ (by omega)) (ih _ (by omega))
      · exact base i (by omega)
  intro i
  exact key n i (by omega)

/-- Every node of a subtree has an index at least that of the root. -/
theorem InTree.le_of_inTree {i j : Nat} (h : InTree i j) : i ≤ j := by
  induction h with
  | refl i => exact Nat.le_refl i
  | left _ ih => omega
  | right _ ih => omega

/-- Subtree containment is transitive. -/
theorem InTree.trans {i p j : Nat} (h1 : InTree i p) (h2 : InTree p j) : InTree i j := by
  induction h1 with
  | refl _ => exact h2
  | left _ ih => exact .left (ih h2)
  | right _ ih => exact .right (ih h2)

/-- Every index lies in the subtree of the root 0. -/
theorem inTree_root (j : Nat) : InTree 0 j := by
  induction j using Nat.strong_induction_on with
  | _ j ih =>
    match j with
    | 0 => exact .refl 0
    | k + 1 =>
      have hp : InTree 0 (k / 2) := ih (k / 2) (by omega)
      rcases Nat.even_or_odd k with he | ho
      · obtain ⟨p, hpk⟩ := he
        have hchild : InTree (k / 2) (k + 1) := by
          have h1 : k + 1 = 2 * (k / 2) + 1 := by omega
          rw [h1]
          exact .left (.refl _)
        exact hp.trans hchild
      · obtain ⟨p, hpk⟩ := ho
        have hchild : InTree (k / 2) (k + 1) := by
          have h1 : k + 1 = 2 * (k / 2) + 2 := by omega
          rw [h1]
          exact .right (.refl _)
        exact hp.trans hchild

/-- Membership in the in-order index list is exactly subtree membership
below the capacity. -/
theorem mem_inorderIdx {cap : Nat} :
    ∀ i j, j ∈ inorderIdx cap i ↔ j < cap ∧ InTree i j := by
  intro i
  induction i using tree_rec cap with
  | base i hi =>
    intro j
    rw [inorderIdx_of_ge hi]
    simp only [List.not_mem_nil, false_iff]
    rintro ⟨hj, ht⟩
    have := ht.le_of_inTree
    omega
  | step i hi ih1 ih2 =>
    intro j
    rw [inorderIdx_of_lt hi]
    simp only [List.mem_append, List.mem_cons]
    constructor
    · rintro (h1 | h2 | h3)
      · obtain ⟨hj, ht⟩ := (ih1 j).1 h1
        exact ⟨hj, .left ht⟩
      · exact ⟨h2 ▸ hi, h2 ▸ .refl i⟩
      · obtain ⟨hj, ht⟩ := (ih2 j).1 h3
        exact ⟨hj, .right ht⟩
    · rintro ⟨hj, ht⟩
      cases ht with
      | refl => exact Or.inr (Or.inl rfl)
      | left h => exact Or.inl ((ih1 j).2 ⟨hj, h⟩)
      | right h => exact Or.inr (Or.inr ((ih2 j).2 ⟨hj, h⟩))

/-- Half of the binary-prefix characterization: a prefix decomposition puts
j in the subtree of i. -/
theorem prefix_to_inTree :
    ∀ d i j t : Nat, t < 2 ^ d → j + 1 = (i + 1) * 2 ^ d + t → InTree i j := by
  intro d
  induction d with
  | zero =>
    intro i j t h1 h2
    have hj : j = i := by simp only [pow_zero] at h1 h2; omega
    exact hj ▸ .refl i
  | succ d ih =>
    intro i j t h1 h2
    have hp : 2 ^ (d + 1) = 2 ^ d * 2 := pow_succ 2 d
    by_cases ht : t < 2 ^ d
    · refine .left (ih (2 * i + 1) j t ht ?_)
      have harith : (2 * i + 1 + 1) * 2 ^ d = (i + 1) * 2 ^ (d + 1) := by
        rw [pow_succ]; ring
      omega
    · refine .right (ih (2 * i + 2) j (t - 2 ^ d) (by omega) ?_)
      have harith : (2 * i + 2 + 1) * 2 ^ d = (i + 1) * 2 ^ (d + 1) + 2 ^ d := by
        rw [pow_succ]; ring
      omega

/-- Binary-prefix characterization of subtree membership: j is in the
subtree of i exactly when the binary representation of i+1 is a prefix of
that of j+1. -/
theorem inTree_iff_bits {i j : Nat} :
    InTree i j ↔ ∃ d t, t < 2 ^ d ∧ j + 1 = (i + 1) * 2 ^ d + t := by
  constructor
  · intro h
    induction h with
    | refl i => exact ⟨0, 0, by norm_num⟩
    | @left i j _ ih =>
      obtain ⟨d, t, h1, h2⟩ := ih
      refine ⟨d + 1, t, ?_, ?_⟩
      · calc t < 2 ^ d := h1
          _ ≤ 2 ^ (d + 1) := Nat.pow_le_pow_right (by omega) (by omega)
      · have harith : (2 * i + 1 + 1) * 2 ^ d = (i + 1) * 2 ^ (d + 1) := by
          rw [pow_succ]; ring
        omega
    | @right i j _ ih =>
      obtain ⟨d, t, h1, h2⟩ := ih
      refine ⟨d + 1, 2 ^ d + t, ?_, ?_⟩
      · have hp : 2 ^ (d + 1) = 2 ^ d * 2 := pow_succ 2 d
        omega
      · have harith : (2 * i + 2 + 1) * 2 ^ d = (i + 1) * 2 ^ (d + 1) + 2 ^ d := by
          rw [pow_succ]; ring
        omega
  · rintro ⟨d, t, h1, h2⟩
    exact prefix_to_inTree d i j t h1 h2

/-- Helper: quotient recovery from the prefix form. -/
theorem div_mul_add_eq {m A d t : Nat} (h1 : t < 2 ^ d) (h2 : m = A * 2 ^ d + t) :
    m / 2 ^ d = A := by
  subst h2
  rw [Nat.add_comm, Nat.add_mul_div_right _ _ (Nat.two_pow_pos d),
    Nat.div_eq_of_lt h1]
  omega

/-- The subtrees of the two children of a node are disjoint. -/
theorem inTree_disjoint {i j : Nat} (hl : InTree (2 * i + 1) j)
    (hr : InTree (2 * i + 2) j) : False := by
  obtain ⟨a, s, ha1, ha2⟩ := inTree_iff_bits.1 hl
  obtain ⟨b, t, hb1, hb2⟩ := inTree_iff_bits.1 hr
  have hda : (j + 1) / 2 ^ a = 2 * i + 2 := div_mul_add_eq ha1 (by rw [ha2])
  have hdb : (j + 1) / 2 ^ b = 2 * i + 3 := div_mul_add_eq hb1 (by rw [hb2])
  rcases Nat.lt_trichotomy a b with hab | hab | hab
  · have hsplit : 2 ^ b = 2 ^ a * 2 ^ (b - a) := by
      rw [← pow_add]
      congr 1
      omega
    have hdd : (j + 1) / 2 ^ b = (2 * i + 2) / 2 ^ (b - a) := by
      rw [hsplit, ← Nat.div_div_eq_div_mul, hda]
    have hle : (2 * i + 2) / 2 ^ (b - a) ≤ (2 * i + 2) / 2 := by
      apply Nat.div_le_div_left
      · calc (2 : Nat) = 2 ^ 1 := (pow_one 2).symm
          _ ≤ 2 ^ (b - a) := Nat.pow_le_pow_right (by omega) (by omega)
      · omega
    omega
  · subst hab
    omega
  · have hsplit : 2 ^ a = 2 ^ b * 2 ^ (a - b) := by
      rw [← pow_add]
      congr 1
      omega
    have hdd : (j + 1) / 2 ^ a = (2 * i + 3) / 2 ^ (a - b) := by
      rw [hsplit, ← Nat.div_div_eq_div_mul, hdb]
    have hle : (2 * i + 3) / 2 ^ (a - b) ≤ (2 * i + 3) / 2 := by
      apply Nat.div_le_div_left
      · calc (2 : Nat) = 2 ^ 1 := (pow_one 2).symm
          _ ≤ 2 ^ (a - b) := Nat.pow_le_pow_right (by omega) (by omega)
      · omega
    omega

/-- The in-order index list has no duplicates. -/
theorem nodup_inorderIdx (cap : Nat) : ∀ i, (inorderIdx cap i).Nodup := by
  intro i
  induction i using tree_rec cap with
  | base i hi => rw [inorderIdx_of_ge hi]; exact List.nodup_nil
  | step i hi ih1 ih2 =>
    rw [inorderIdx_of_lt hi]
    rw [List.nodup_append]
    refine ⟨ih1, ?_, ?_⟩
    · rw [List.nodup_cons]
      refine ⟨fun hmem => ?_, ih2⟩
      have := ((mem_inorderIdx _ i).1 hmem).2.le_of_inTree
      omega
    · intro a ha hb
      have h1 := ((mem_inorderIdx _ a).1 ha).2
      rcases List.mem_cons.1 hb with hb2 | hb2
      · subst hb2
        have := h1.le_of_inTree
        omega
      · exact inTree_disjoint h1 ((mem_inorderIdx _ a).1 hb2).2

/-- The in-order index list of the whole tree is a permutation of the
range [0, n). -/
theorem inorderIdx_perm (n : Nat) : (inorderIdx n 0).Perm (List.range n) := by
  rw [List.perm_ext_iff_of_nodup (nodup_inorderIdx n 0) (List.nodup_range n)]
  intro j
  rw [mem_inorderIdx, List.mem_range]
  exact ⟨fun h => h.1, fun h => ⟨h, inTree_root j⟩⟩

/-- The in-order index list of the whole tree has length n. -/
theorem inorderIdx_length (n : Nat) : (inorderIdx n 0).length = n := by
  rw [(inorderIdx_perm n).length_eq, List.length_range]

end TreeLemmas

section WalkLemmas

variable {α : Type*}

/-- writeZip with no indices leaves the buffer unchanged. -/
theorem writeZip_nil_left (buf : Nat → Option α) (vs : List α) :
    writeZip buf [] vs = buf := by
  cases vs <;> rfl

/-- Unfolding equation of writeZip on two conses. -/
theorem writeZip_cons (buf : Nat → Option α) (i : Nat) (is : List Nat) (v : α) (vs : List α) :
    writeZip buf (i :: is) (v :: vs) = writeZip (setAt buf i v) is vs := rfl

/-- A slot not among the written indices keeps its old contents. -/
theorem writeZip_apply_not_mem (L : List Nat) :
    ∀ (vs : List α) (buf : Nat → Option α) (j : Nat), j ∉ L → writeZip buf L vs j = buf j := by
  induction L with
  | nil => intro vs buf j _; rw [writeZip_nil_left]
  | cons i is ih =>
    intro vs buf j hj
    have hji : j ≠ i ∧ j ∉ is := by simpa using hj
    cases vs with
    | nil => rfl
    | cons v vs =>
      rw [writeZip_cons, ih vs (setAt buf i v) j hji.2]
      simp [setAt, hji.1]

/-- Reading back the k-th written index yields the k-th value, provided the
indices are distinct. -/
theorem writeZip_apply_get? (L : List Nat) :
    ∀ (vs : List α) (buf : Nat → Option α), L.Nodup →
      ∀ k j v, L.get? k = some j → vs.get? k = some v → writeZip buf L vs j = some v := by
  induction L with
  | nil => intro vs buf _ k j v hk; simp at hk
  | cons i is ih =>
    intro vs buf hnd k j v hk hv
    cases vs with
    | nil => simp at hv
    | cons w vs =>
      rw [writeZip_cons]
      cases k with
      | zero =>
        simp only [List.get?] at hk hv
        obtain rfl : i = j := by injection hk
        obtain rfl : w = v := by injection hv
        rw [writeZip_apply_not_mem is vs (setAt buf i w) i (List.nodup_cons.1 hnd).1]
        simp [setAt]
      | succ k =>
        simp only [List.get?] at hk hv
        exact ih vs (setAt buf i w) (List.nodup_cons.1 hnd).2 k j v hk hv

/-- writeZip over an appended index list splits into two phases, feeding the
second phase the unconsumed values. -/
theorem writeZip_append (A : List Nat) :
    ∀ (B : List Nat) (vs : List α) (buf : Nat → Option α), A.length ≤ vs.length →
      writeZip buf (A ++ B) vs = writeZip (writeZip buf A vs) B (vs.drop A.length) := by
  induction A with
  | nil => intro B vs buf _; rw [writeZip_nil_left]; simp
  | cons a A ih =>
    intro B vs buf hlen
    cases vs with
    | nil => simp at hlen
    | cons v vs =>
      simp only [List.cons_append, writeZip_cons, List.length_cons, List.drop_succ_cons]
      exact ih B vs (setAt buf a v) (by simpa using hlen)

/-- Reading the written indices back in order recovers the written values. -/
theorem writeZip_filterMap (L : List Nat) :
    ∀ (vs : List α) (buf : Nat → Option α), L.Nodup → L.length ≤ vs.length →
      L.filterMap (writeZip buf L vs) = vs.take L.length := by
  induction L with
  | nil => intro vs buf _ _; simp
  | cons i is ih =>
    intro vs buf hnd hlen
    cases vs with
    | nil => simp at hlen
    | cons v vs =>
      rw [writeZip_cons]
      have hhead : writeZip (setAt buf i v) is vs i = some v := by
        rw [writeZip_apply_not_mem is vs (setAt buf i v) i (List.nodup_cons.1 hnd).1]
        simp [setAt]
      rw [List.filterMap_cons, hhead, ih vs (setAt buf i v) (List.nodup_cons.1 hnd).2
        (by simpa using hlen)]
      simp [List.take_succ_cons]

/-- mapM over Option succeeds and agrees with filterMap when the function
is defined on every element. -/
theorem mapM_eq_some_filterMap (f : Nat → Option α) :
    ∀ L : List Nat, (∀ j ∈ L, (f j).isSome) → L.mapM f = some (L.filterMap f) := by
  intro L
  induction L with
  | nil => intro _; rfl
  | cons j L ih =>
    intro hall
    obtain ⟨v, hv⟩ := Option.isSome_iff_exists.1 (hall j (by simp))
    rw [List.mapM_cons, ih (fun a ha => hall a (by simp [ha])), hv, List.filterMap_cons, hv]
    rfl

/-- filterMap of an everywhere-defined function preserves length and reads
back positionally. -/
theorem filterMap_all_some (f : Nat → Option α) :
    ∀ L : List Nat, (∀ j ∈ L, (f j).isSome) →
      (L.filterMap f).length = L.length ∧
      ∀ k j, L.get? k = some j → (L.filterMap f).get? k = f j := by
  intro L
  induction L with
  | nil => intro _; refine ⟨rfl, ?_⟩; intro k j hk; simp at hk
  | cons j L ih =>
    intro hall
    obtain ⟨v, hv⟩ := Option.isSome_iff_exists.1 (hall j (by simp))
    obtain ⟨ihl, ihg⟩ := ih (fun a ha => hall a (by simp [ha]))
    rw [List.filterMap_cons, hv]
    refine ⟨by simp [ihl], ?_⟩
    intro k a hk
    cases k with
    | zero =>
      simp only [List.get?] at hk ⊢
      obtain rfl : j = a := by injection hk
      rw [hv]
    | succ k =>
      simp only [List.get?] at hk ⊢
      exact ihg k a hk

/-- The final buffer produced by eytzinger_walk: the walk from index i
consumes exactly the in-order index count of values and performs the
in-order sequence of raw writes. -/
theorem eytzinger_walk_eq (cap : Nat) :
    ∀ (i : Nat) (input : List α) (buf : Nat → Option α),
      (inorderIdx cap i).length ≤ input.length →
      eytzinger_walk cap i input buf
        = some (input.drop (inorderIdx cap i).length, writeZip buf (inorderIdx cap i) input) := by
  intro i
  induction i using tree_rec cap with
  | base i hi =>
    intro input buf _
    rw [eytzinger_walk, dif_neg (by omega), inorderIdx_of_ge hi, writeZip_nil_left]
    simp
  | step i hi ih1 ih2 =>
    intro input buf hlen
    rw [inorderIdx_of_lt hi] at hlen
    simp only [List.length_append, List.length_cons] at hlen
    have hlen1 : (inorderIdx cap (2 * i + 1)).length ≤ input.length := by omega
    have hlt : (inorderIdx cap (2 * i + 1)).length < input.length := by omega
    rw [eytzinger_walk, dif_pos hi, ih1 input buf hlen1,
      List.drop_eq_get_cons hlt]
    simp only []
    have hlen2 : (inorderIdx cap (2 * i + 2)).length ≤
        (input.drop ((inorderIdx cap (2 * i + 1)).length + 1)).length := by
      rw [List.length_drop]
      omega
    rw [ih2 _ _ hlen2, inorderIdx_of_lt hi]
    have hdrops : (input.drop ((inorderIdx cap (2 * i + 1)).length + 1)).drop
        (inorderIdx cap (2 * i + 2)).length
        = input.drop (inorderIdx cap (2 * i + 1) ++ i :: inorderIdx cap (2 * i + 2)).length := by
      rw [List.drop_drop]
      congr 1
      simp only [List.length_append, List.length_cons]
      omega
    have hwz : writeZip buf (inorderIdx cap (2 * i + 1) ++ i :: inorderIdx cap (2 * i + 2)) input
        = writeZip (setAt (writeZip buf (inorderIdx cap (2 * i + 1)) input) i
            (input.get ⟨(inorderIdx cap (2 * i + 1)).length, hlt⟩))
          (inorderIdx cap (2 * i + 2))
          (input.drop ((inorderIdx cap (2 * i + 1)).length + 1)) := by
      rw [writeZip_append _ _ _ _ hlen1, List.drop_eq_get_cons hlt, writeZip_cons]
    rw [hdrops, hwz]

end WalkLemmas

section BuildSpec

variable {α : Type*}

/-- Every slot below the length is initialized by the walk, and holds the
input value whose position matches the slot's in-order rank. -/
theorem walkBuf_isSome (input : List α) (j : Nat) (hj : j < input.length) :
    (walkBuf input j).isSome := by
  have hmem : j ∈ inorderIdx input.length 0 := (mem_inorderIdx 0 j).2 ⟨hj, inTree_root j⟩
  obtain ⟨k, hk⟩ := List.get?_of_mem hmem
  have hklt : k < (inorderIdx input.length 0).length := by
    by_contra hge
    rw [List.get?_eq_none.2 (by omega)] at hk
    simp at hk
  have hkin : k < input.length := by rw [inorderIdx_length] at hklt; exact hklt
  have := writeZip_apply_get? (inorderIdx input.length 0) input (fun _ => none)
    (nodup_inorderIdx _ 0) k j (input.get ⟨k, hkin⟩) hk (List.get?_eq_get hkin)
  unfold walkBuf
  rw [this]
  rfl

/-- from_sorted_iter always succeeds and returns the walk's buffer read
back slot by slot. -/
theorem from_sorted_iter_eq (input : List α) :
    from_sorted_iter input = some ((List.range input.length).filterMap (walkBuf input)) := by
  unfold from_sorted_iter
  rw [eytzinger_walk_eq input.length 0 input _ (le_of_eq (inorderIdx_length _))]
  simp only []
  exact mapM_eq_some_filterMap _ _
    (fun j hj => walkBuf_isSome input j (List.mem_range.1 hj))

/-- The built buffer has exactly the input's length. -/
theorem built_items_length (input : List α) :
    ((List.range input.length).filterMap (walkBuf input)).length = input.length := by
  rw [(filterMap_all_some (walkBuf input) (List.range input.length)
    (fun j hj => walkBuf_isSome input j (List.mem_range.1 hj))).1, List.length_range]

/-- Positional read of the built buffer agrees with the raw walk buffer. -/
theorem built_items_get? (input : List α) (j : Nat) (hj : j < input.length) :
    ((List.range input.length).filterMap (walkBuf input)).get? j = walkBuf input j := by
  exact (filterMap_all_some (walkBuf input) (List.range input.length)
    (fun a ha => walkBuf_isSome input a (List.mem_range.1 ha))).2 j j (List.get?_range hj)

/-- Reading the raw walk buffer along the in-order index sequence recovers
the input. -/
theorem walkBuf_filterMap (input : List α) :
    (inorderIdx input.length 0).filterMap (walkBuf input) = input := by
  unfold walkBuf
  rw [writeZip_filterMap _ input (fun _ => none) (nodup_inorderIdx _ 0)
    (le_of_eq (inorderIdx_length _)), inorderIdx_length, List.take_length]

/-- The in-order traversal of the built buffer is the input sequence. -/
theorem built_inorderVals (input : List α) :
    inorderVals ((List.range input.length).filterMap (walkBuf input)) 0 = input := by
  unfold inorderVals
  rw [built_items_length]
  rw [List.filterMap_congr
    (fun j hj => built_items_get? input j ((mem_inorderIdx 0 j).1 hj).1)]
  exact walkBuf_filterMap input

/-- The built buffer is a permutation of the input. -/
theorem built_perm (input : List α) :
    ((List.range input.length).filterMap (walkBuf input)).Perm input := by
  have h1 : (List.range input.length).Perm (inorderIdx input.length 0) :=
    (inorderIdx_perm _).symm
  have h2 := h1.filterMap (walkBuf input)
  rw [walkBuf_filterMap input] at h2
  exact h2

end BuildSpec

section DecodeLemmas

/-- trailingOnes of an even number is 0. -/
theorem trailingOnes_of_even {m : Nat} (h : m % 2 = 0) : trailingOnes m = 0 := by
  rw [trailingOnes, dif_neg (by omega)]

/-- trailingOnes of an odd number counts the low bit and recurses. -/
theorem trailingOnes_of_odd {m : Nat} (h : m % 2 = 1) :
    trailingOnes m = trailingOnes (m / 2) + 1 := by
  rw [trailingOnes, dif_pos h]

/-- trailingOnes of the all-ones value 2^k - 1 is k. -/
theorem trailingOnes_all_ones (k : Nat) : trailingOnes (2 ^ k - 1) = k := by
  induction k with
  | zero => exact trailingOnes_of_even (by norm_num)
  | succ k ih =>
    have h2 : 2 ^ (k + 1) = 2 ^ k * 2 := pow_succ 2 k
    have hpos : 0 < 2 ^ k := Nat.two_pow_pos k
    have hodd : (2 ^ (k + 1) - 1) % 2 = 1 := by omega
    have hdiv : (2 ^ (k + 1) - 1) / 2 = 2 ^ k - 1 := by omega
    rw [trailingOnes_of_odd hodd, hdiv, ih]

/-- trailingOnes of m * 2^(r+1) + (2^r - 1): the low r bits are ones and
bit r is zero, for any m. -/
theorem trailingOnes_pattern (r : Nat) :
    ∀ m : Nat, trailingOnes (m * 2 ^ (r + 1) + (2 ^ r - 1)) = r := by
  induction r with
  | zero =>
    intro m
    apply trailingOnes_of_even
    have : m * 2 ^ (0 + 1) = m * 2 := by norm_num
    omega
  | succ r ih =>
    intro m
    have hsplit : m * 2 ^ (r + 1 + 1) = 2 * (m * 2 ^ (r + 1)) := by
      rw [pow_succ]; ring
    have hp2 : 2 ^ (r + 1) = 2 ^ r * 2 := pow_succ 2 r
    have hpos : 0 < 2 ^ r := Nat.two_pow_pos r
    have hN : m * 2 ^ (r + 1 + 1) + (2 ^ (r + 1) - 1)
        = 2 * (m * 2 ^ (r + 1) + (2 ^ r - 1)) + 1 := by omega
    have hdiv : (2 * (m * 2 ^ (r + 1) + (2 ^ r - 1)) + 1) / 2
        = m * 2 ^ (r + 1) + (2 ^ r - 1) := by omega
    rw [hN, trailingOnes_of_odd (by omega), hdiv, ih m]

/-- Decoding a final index whose path had its last left turn at node j
recovers j + 1: shifting away the trailing ones (the right moves after j)
plus the single zero (the left move at j). -/
theorem decode_pattern {f j r : Nat}
    (hf : f + 1 = (j + 1) * 2 ^ (r + 1) + (2 ^ r - 1)) :
    (f + 1) >>> (trailingOnes (f + 1) + 1) = j + 1 := by
  rw [hf, trailingOnes_pattern r (j + 1), Nat.shiftRight_eq_div_pow]
  have hp2 : 2 ^ (r + 1) = 2 ^ r * 2 := pow_succ 2 r
  have hpos : 0 < 2 ^ r := Nat.two_pow_pos r
  exact div_mul_add_eq (by omega) rfl

/-- Decoding a final index reached from the root by right moves only
yields 0 (no qualifying element). -/
theorem decode_all_ones {f r : Nat}
    (hf : f + 1 = (0 + 1) * 2 ^ r + (2 ^ r - 1)) :
    (f + 1) >>> (trailingOnes (f + 1) + 1) = 0 := by
  have hpos : 0 < 2 ^ r := Nat.two_pow_pos r
  have hp2 : 2 ^ (r + 1) = 2 ^ r * 2 := pow_succ 2 r
  have h1 : f + 1 = 2 ^ (r + 1) - 1 := by omega
  rw [h1, trailingOnes_all_ones (r + 1), Nat.shiftRight_eq_div_pow]
  apply Nat.div_eq_of_lt
  have hp3 : 2 ^ (r + 1 + 1) = 2 ^ (r + 1) * 2 := pow_succ 2 (r + 1)
  have hpos2 : 0 < 2 ^ (r + 1) := Nat.two_pow_pos (r + 1)
  omega

end DecodeLemmas

section LoopEquations

variable {α : Type*} [LinearOrder α] [DecidableEq α]

/-- The branchless loop exits immediately at an out-of-range index. -/
theorem loopFinal_of_ge {items : List α} {x : α} {i : Nat} (h : items.length ≤ i) :
    loopFinal items x i = i := by
  rw [loopFinal, dif_neg (by omega)]

/-- One step of the branchless loop at an in-range index. -/
theorem loopFinal_of_lt {items : List α} {x : α} {i : Nat} (h : i < items.length) :
    loopFinal items x i
      = loopFinal items x (2 * i + 1 + if items.get ⟨i, h⟩ < x then 1 else 0) := by
  rw [loopFinal, dif_pos h]

/-- The out-of-range case of searchSteps. -/
theorem searchSteps_of_ge {items : List α} {x : α} {i : Nat} (h : items.length ≤ i) :
    searchSteps items x i = 0 := by
  rw [searchSteps, dif_neg (by omega)]

/-- One step of searchSteps at an in-range index. -/
theorem searchSteps_of_lt {items : List α} {x : α} {i : Nat} (h : i < items.length) :
    searchSteps items x i
      = searchSteps items x (2 * i + 1 + if items.get ⟨i, h⟩ < x then 1 else 0) + 1 := by
  rw [searchSteps, dif_pos h]

/-- The in-order values of a subtree split at the root's stored value. -/
theorem inorderVals_decomp {items : List α} {i : Nat} (h : i < items.length) :
    inorderVals items i
      = inorderVals items (2 * i + 1)
        ++ items.get ⟨i, h⟩ :: inorderVals items (2 * i + 2) := by
  unfold inorderVals
  rw [inorderIdx_of_lt h, List.filterMap_append, List.filterMap_cons, List.get?_eq_get h]

/-- With BRANCHLESS = true the loop never takes the early exit: its result
is the final index of the branchless walk. -/
theorem findLoop_true_fst (sz : Nat) (P : Bool) (items : List α) (x : α) :
    ∀ (i : Nat) (trace : List Nat),
      (findLoop sz P true items x i trace).1 = Sum.inl (loopFinal items x i) := by
  intro i
  induction i using tree_rec items.length with
  | base i hi =>
    intro tr
    rw [findLoop, dif_neg (by omega), loopFinal_of_ge hi]
  | step i hi ih1 ih2 =>
    intro tr
    rw [findLoop, dif_pos hi, loopFinal_of_lt hi]
    simp only []
    rw [if_neg (by simp)]
    by_cases hc : items.get ⟨i, hi⟩ < x
    · rw [if_pos hc]
      have h22 : 2 * i + 1 + 1 = 2 * i + 2 := by omega
      rw [h22]
      exact ih2 _
    · rw [if_neg hc]
      exact ih1 _

/-- With PREFETCH = true and BRANCHLESS = true the loop appends exactly one
prefetched index per iteration. -/
theorem findLoop_trace_length (sz : Nat) (items : List α) (x : α) :
    ∀ (i : Nat) (trace : List Nat),
      (findLoop sz true true items x i trace).2.length
        = trace.length + searchSteps items x i := by
  intro i
  induction i using tree_rec items.length with
  | base i hi =>
    intro tr
    rw [findLoop, dif_neg (by omega), searchSteps_of_ge hi]
    rfl
  | step i hi ih1 ih2 =>
    intro tr
    rw [findLoop, dif_pos hi, searchSteps_of_lt hi]
    simp only []
    rw [if_pos trivial, if_neg (by simp)]
    by_cases hc : items.get ⟨i, hi⟩ < x
    · rw [if_pos hc]
      have h22 : 2 * i + 1 + 1 = 2 * i + 2 := by omega
      rw [h22, ih2 _]
      simp only [List.length_append, List.length_singleton]
      omega
    · rw [if_neg hc]
      rw [Nat.add_zero, ih1 _]
      simp only [List.length_append, List.length_singleton]
      omega

end LoopEquations

section SearchCorrect

variable {α : Type*} [LinearOrder α] [DecidableEq α]

/-- find? over a cons whose head satisfies the test. -/
theorem find?_cons_pos' {β : Type*} (p : β → Bool) (a : β) (l : List β) (h : p a = true) :
    (a :: l).find? p = some a := by
  simp [List.find?, h]

/-- find? over a cons whose head fails the test. -/
theorem find?_cons_neg' {β : Type*} (p : β → Bool) (a : β) (l : List β) (h : p a = false) :
    (a :: l).find? p = l.find? p := by
  simp [List.find?, h]

/-- Core correctness of the branchless walk plus decode, by induction over
the implicit tree: starting from any node i whose subtree segment is
sorted, if that segment has an element ≥ x then the final index encodes
(as the last left turn) a position holding its first such element;
otherwise the traversal from i takes right moves only. -/
theorem loop_correct (items : List α) (x : α) :
    ∀ i : Nat, (inorderVals items i).Sorted (· ≤ ·) →
      (∀ v, (inorderVals items i).find? (fun w => decide (x ≤ w)) = some v →
        ∃ j r, items.get? j = some v ∧
          loopFinal items x i + 1 = (j + 1) * 2 ^ (r + 1) + (2 ^ r - 1)) ∧
      ((inorderVals items i).find? (fun w => decide (x ≤ w)) = none →
        ∃ r, loopFinal items x i + 1 = (i + 1) * 2 ^ r + (2 ^ r - 1)) := by
  intro i
  induction i using tree_rec items.length with
  | base i hi =>
    intro _
    have hnil : inorderVals items i = [] := by
      unfold inorderVals
      rw [inorderIdx_of_ge hi]
      rfl
    refine ⟨?_, ?_⟩
    · intro v hv
      rw [hnil] at hv
      simp at hv
    · intro _
      refine ⟨0, ?_⟩
      rw [loopFinal_of_ge hi]
      simp
  | step i hi ih1 ih2 =>
    intro hs
    have hdec := inorderVals_decomp hi
    rw [hdec] at hs
    have hsplit := List.pairwise_append.1 hs
    have hA : (inorderVals items (2 * i + 1)).Sorted (· ≤ ·) := hsplit.1
    have hB : (inorderVals items (2 * i + 2)).Sorted (· ≤ ·) :=
      (List.pairwise_cons.1 hsplit.2.1).2
    have hAle : ∀ a ∈ inorderVals items (2 * i + 1), a ≤ items.get ⟨i, hi⟩ :=
      fun a ha => hsplit.2.2 a ha _ (List.mem_cons_self _ _)
    by_cases hcmp : items.get ⟨i, hi⟩ < x
    · -- stored value < x : the loop moves right; nothing in the left
      -- subtree or at the root qualifies
      have h22 : 2 * i + 1 + 1 = 2 * i + 2 := by omega
      have hstep : loopFinal items x i = loopFinal items x (2 * i + 2) := by
        rw [loopFinal_of_lt hi, if_pos hcmp, h22]
      have hAnone : (inorderVals items (2 * i + 1)).find? (fun w => decide (x ≤ w))
          = none := by
        rw [List.find?_eq_none]
        intro a ha
        simp only [decide_eq_true_eq]
        exact not_le.2 (lt_of_le_of_lt (hAle a ha) hcmp)
      have hroot_neg : decide (x ≤ items.get ⟨i, hi⟩) = false :=
        decide_eq_false_iff_not.mpr (not_le.2 hcmp)
      have hfind : (inorderVals items i).find? (fun w => decide (x ≤ w))
          = (inorderVals items (2 * i + 2)).find? (fun w => decide (x ≤ w)) := by
        rw [hdec, List.find?_append, hAnone, Option.none_or,
          find?_cons_neg' (fun w => decide (x ≤ w)) _ _ hroot_neg]
      obtain ⟨ihs, ihn⟩ := ih2 hB
      refine ⟨?_, ?_⟩
      · intro v hv
        rw [hfind] at hv
        obtain ⟨j, r, hj, heq⟩ := ihs v hv
        exact ⟨j, r, hj, by rw [hstep]; exact heq⟩
      · intro hnone
        rw [hfind] at hnone
        obtain ⟨r, heq⟩ := ihn hnone
        refine ⟨r + 1, ?_⟩
        rw [hstep]
        have hXY : (2 * i + 2 + 1) * 2 ^ r = (i + 1) * 2 ^ (r + 1) + 2 ^ r := by
          rw [pow_succ]; ring
        have hp : 2 ^ (r + 1) = 2 ^ r * 2 := pow_succ 2 r
        have hpos : 0 < 2 ^ r := Nat.two_pow_pos r
        omega
    · -- x ≤ stored value : the loop moves left; the root itself qualifies
      have hxle : x ≤ items.get ⟨i, hi⟩ := not_lt.1 hcmp
      have hstep : loopFinal items x i = loopFinal items x (2 * i + 1) := by
        rw [loopFinal_of_lt hi, if_neg hcmp, Nat.add_zero]
      obtain ⟨ihs, ihn⟩ := ih1 hA
      by_cases hAf : ∃ v, (inorderVals items (2 * i + 1)).find?
          (fun w => decide (x ≤ w)) = some v
      · obtain ⟨v0, hv0⟩ := hAf
        have hfind : (inorderVals items i).find? (fun w => decide (x ≤ w))
            = some v0 := by
          rw [hdec, List.find?_append, hv0]
          rfl
        refine ⟨?_, ?_⟩
        · intro v hv
          rw [hfind] at hv
          obtain rfl : v0 = v := by injection hv
          obtain ⟨j, r, hj, heq⟩ := ihs v0 hv0
          exact ⟨j, r, hj, by rw [hstep]; exact heq⟩
        · intro hnone
          rw [hfind] at hnone
          simp at hnone
      · have hAnone : (inorderVals items (2 * i + 1)).find?
            (fun w => decide (x ≤ w)) = none := by
          rcases hh : (inorderVals items (2 * i + 1)).find? (fun w => decide (x ≤ w))
            with _ | v
          · rfl
          · exact absurd ⟨v, hh⟩ hAf
        have hfind : (inorderVals items i).find? (fun w => decide (x ≤ w))
            = some (items.get ⟨i, hi⟩) := by
          rw [hdec, List.find?_append, hAnone, Option.none_or,
            find?_cons_pos' (fun w => decide (x ≤ w)) _ _ (decide_eq_true hxle)]
        obtain ⟨r, heq⟩ := ihn hAnone
        refine ⟨?_, ?_⟩
        · intro v hv
          rw [hfind] at hv
          obtain rfl : items.get ⟨i, hi⟩ = v := by injection hv
          refine ⟨i, r, List.get?_eq_get hi, ?_⟩
          rw [hstep]
          have hXY : (2 * i + 1 + 1) * 2 ^ r = (i + 1) * 2 ^ (r + 1) := by
            rw [pow_succ]; ring
          omega
        · intro hnone
          rw [hfind] at hnone
          simp at hnone

end SearchCorrect

section FindGteMain

variable {α : Type*} [LinearOrder α] [DecidableEq α]

/-- The result component of find_gte as a function of the loop's result. -/
theorem find_gte_fst (sz : Nat) (P B : Bool) (items : List α) (x : α) :
    (find_gte sz P B items x).1
      = match (findLoop sz P B items x 0 []).1 with
        | Sum.inr v => some v
        | Sum.inl i =>
          if (i + 1) >>> (trailingOnes (i + 1) + 1) = 0 then none
          else items.get? ((i + 1) >>> (trailingOnes (i + 1) + 1) - 1) := by
  rcases h : findLoop sz P B items x 0 [] with ⟨s, tr⟩
  cases s with
  | inl i => simp [find_gte, h]
  | inr v => simp [find_gte, h]

/-- The trace component of find_gte is the loop's trace. -/
theorem find_gte_snd (sz : Nat) (P B : Bool) (items : List α) (x : α) :
    (find_gte sz P B items x).2 = (findLoop sz P B items x 0 []).2 := by
  rcases h : findLoop sz P B items x 0 [] with ⟨s, tr⟩
  cases s with
  | inl i => simp [find_gte, h]
  | inr v => simp [find_gte, h]

/-- Functional correctness of the branchless search over a collection built
from a sorted input: find_gte returns exactly what a left-to-right scan for
the first element ≥ x over the sorted input returns. -/
theorem find_gte_eq_scan (sz : Nat) (P : Bool) (input items : List α)
    (hsort : input.Sorted (· ≤ ·)) (hbuild : from_sorted_iter input = some items)
    (x : α) :
    (find_gte sz P true items x).1 = input.find? (fun w => decide (x ≤ w)) := by
  have hitems : items = (List.range input.length).filterMap (walkBuf input) := by
    rw [from_sorted_iter_eq] at hbuild
    exact (Option.some.inj hbuild).symm
  have hiv : inorderVals items 0 = input := by
    rw [hitems]
    exact built_inorderVals input
  have hs0 : (inorderVals items 0).Sorted (· ≤ ·) := by rw [hiv]; exact hsort
  have hmain := loop_correct items x 0 hs0
  rw [find_gte_fst, findLoop_true_fst]
  simp only []
  rcases hf : input.find? (fun w => decide (x ≤ w)) with _ | v
  · obtain ⟨r, heq⟩ := hmain.2 (by rw [hiv]; exact hf)
    rw [decode_all_ones heq, if_pos rfl]
  · obtain ⟨j, r, hj, heq⟩ := hmain.1 v (by rw [hiv]; exact hf)
    rw [decode_pattern heq, if_neg (by omega)]
    have hjj : j + 1 - 1 = j := by omega
    rw [hjj, hj]

/-- The built collection holds the same values as the input. -/
theorem built_mem_iff (input items : List α)
    (hbuild : from_sorted_iter input = some items) (v : α) : v ∈ items ↔ v ∈ input := by
  have hitems : items = (List.range input.length).filterMap (walkBuf input) := by
    rw [from_sorted_iter_eq] at hbuild
    exact (Option.some.inj hbuild).symm
  rw [hitems]
  exact (built_perm input).mem_iff

/-- On a sorted list containing x, the first element ≥ x is x itself. -/
theorem sorted_find?_self {l : List α} (hs : l.Sorted (· ≤ ·)) {x : α} (hx : x ∈ l) :
    l.find? (fun w => decide (x ≤ w)) = some x := by
  induction l with
  | nil => simp at hx
  | cons b t ih =>
    by_cases hph : x ≤ b
    · rw [find?_cons_pos' (fun w => decide (x ≤ w)) b t (decide_eq_true hph)]
      rcases List.mem_cons.1 hx with rfl | hxt
      · rfl
      · have hhx : b ≤ x := ((List.pairwise_cons.1 hs).1) x hxt
        rw [le_antisymm hhx hph]
    · rw [find?_cons_neg' (fun w => decide (x ≤ w)) b t (decide_eq_false_iff_not.mpr hph)]
      apply ih (List.pairwise_cons.1 hs).2
      rcases List.mem_cons.1 hx with rfl | hxt
      · exact absurd le_rfl hph
      · exact hxt

end FindGteMain

section VariantLemmas

variable {α : Type*} [LinearOrder α] [DecidableEq α]

/-- The result component of the loop does not depend on PREFETCH or on the
accumulated trace. -/
theorem findLoop_fst_irrel (sz : Nat) (B : Bool) (items : List α) (x : α) :
    ∀ (i : Nat) (P1 P2 : Bool) (t1 t2 : List Nat),
      (findLoop sz P1 B items x i t1).1 = (findLoop sz P2 B items x i t2).1 := by
  intro i
  induction i using tree_rec items.length with
  | base i hi =>
    intro P1 P2 t1 t2
    rw [findLoop, dif_neg (by omega), findLoop, dif_neg (by omega)]
  | step i hi ih1 ih2 =>
    intro P1 P2 t1 t2
    rw [findLoop, dif_pos hi]
    rw [findLoop, dif_pos hi]
    simp only []
    by_cases hB : B = false ∧ items.get ⟨i, hi⟩ = x
    · rw [if_pos hB]
      rw [if_pos hB]
    · rw [if_neg hB]
      rw [if_neg hB]
      by_cases hc : items.get ⟨i, hi⟩ < x
      · rw [if_pos hc]
        have h22 : 2 * i + 1 + 1 = 2 * i + 2 := by omega
        rw [h22]
        exact ih2 P1 P2 _ _
      · rw [if_neg hc, Nat.add_zero]
        exact ih1 P1 P2 _ _

/-- Either the early-exit variant follows the branchless path step for
step, or it exits early at a stored value equal to x. -/
theorem findLoop_early_exit (sz : Nat) (P : Bool) (items : List α) (x : α) :
    ∀ (i : Nat) (t : List Nat),
      (findLoop sz P false items x i t).1 = (findLoop sz P true items x i t).1 ∨
      ((findLoop sz P false items x i t).1 = Sum.inr x ∧ x ∈ items) := by
  intro i
  induction i using tree_rec items.length with
  | base i hi =>
    intro t
    left
    rw [findLoop, dif_neg (by omega), findLoop, dif_neg (by omega)]
  | step i hi ih1 ih2 =>
    intro t
    by_cases hx : items.get ⟨i, hi⟩ = x
    · right
      constructor
      · rw [findLoop, dif_pos hi]
        simp only []
        rw [if_pos ⟨trivial, hx⟩]
        simp only []
        rw [hx]
      · exact hx ▸ items.get_mem i hi
    · have hfalse : (findLoop sz P false items x i t).1
          = (findLoop sz P false items x
              (2 * i + 1 + if items.get ⟨i, hi⟩ < x then 1 else 0)
              (if P = true then t ++ [prefetchIndex sz items.length i] else t)).1 := by
        rw [findLoop, dif_pos hi]
        simp only []
        rw [if_neg (fun hcon => hx hcon.2)]
      have htrue : (findLoop sz P true items x i t).1
          = (findLoop sz P true items x
              (2 * i + 1 + if items.get ⟨i, hi⟩ < x then 1 else 0)
              (if P = true then t ++ [prefetchIndex sz items.length i] else t)).1 := by
        rw [findLoop, dif_pos hi]
        simp only []
        rw [if_neg (by simp)]
      rw [hfalse, htrue]
      by_cases hc : items.get ⟨i, hi⟩ < x
      · rw [if_pos hc]
        have h22 : 2 * i + 1 + 1 = 2 * i + 2 := by omega
        rw [h22]
        exact ih2 _
      · rw [if_neg hc, Nat.add_zero]
        exact ih1 _

end VariantLemmas

section StepBounds

variable {α : Type*} [LinearOrder α] [DecidableEq α]

/-- After s loop iterations from index i the exit index is below
(i + 2) * 2^s - 1, so the collection length bounds s from below. -/
theorem steps_upper (items : List α) (x : α) :
    ∀ i : Nat, items.length + 1 < (i + 2) * 2 ^ searchSteps items x i := by
  intro i
  induction i using tree_rec items.length with
  | base i hi =>
    rw [searchSteps_of_ge hi, pow_zero]
    omega
  | step i hi ih1 ih2 =>
    rw [searchSteps_of_lt hi]
    by_cases hc : items.get ⟨i, hi⟩ < x
    · rw [if_pos hc]
      have h22 : 2 * i + 1 + 1 = 2 * i + 2 := by omega
      rw [h22]
      have hXY : (i + 2) * 2 ^ (searchSteps items x (2 * i + 2) + 1)
          = (2 * i + 2 + 2) * 2 ^ searchSteps items x (2 * i + 2) := by
        rw [pow_succ]; ring
      omega
    · rw [if_neg hc]
      have hz : 2 * i + 1 + 0 = 2 * i + 1 := Nat.add_zero _
      rw [hz]
      have hXY : (i + 2) * 2 ^ (searchSteps items x (2 * i + 1) + 1)
          = (2 * i + 4) * 2 ^ searchSteps items x (2 * i + 1) := by
        rw [pow_succ]; ring
      have hle : (2 * i + 1 + 2) * 2 ^ searchSteps items x (2 * i + 1)
          ≤ (2 * i + 4) * 2 ^ searchSteps items x (2 * i + 1) :=
        Nat.mul_le_mul_right _ (by omega)
      omega

/-- Iterations happen only at in-range indices, so the collection length
bounds s from above. -/
theorem steps_lower (items : List α) (x : α) :
    ∀ i : Nat, i < items.length →
      (i + 1) * 2 ^ searchSteps items x i ≤ 2 * items.length + 1 := by
  intro i
  induction i using tree_rec items.length with
  | base i hi => intro hlt; omega
  | step i hi ih1 ih2 =>
    intro _
    rw [searchSteps_of_lt hi]
    by_cases hc : items.get ⟨i, hi⟩ < x
    · rw [if_pos hc]
      have h22 : 2 * i + 1 + 1 = 2 * i + 2 := by omega
      rw [h22]
      by_cases hnext : 2 * i + 2 < items.length
      · have hih := ih2 hnext
        have hXY : (i + 1) * 2 ^ (searchSteps items x (2 * i + 2) + 1)
            = (2 * i + 2) * 2 ^ searchSteps items x (2 * i + 2) := by
          rw [pow_succ]; ring
        have hle : (2 * i + 2) * 2 ^ searchSteps items x (2 * i + 2)
            ≤ (2 * i + 2 + 1) * 2 ^ searchSteps items x (2 * i + 2) :=
          Nat.mul_le_mul_right _ (by omega)
        omega
      · rw [searchSteps_of_ge (by omega)]
        have : (i + 1) * 2 ^ (0 + 1) = (i + 1) * 2 := by norm_num
        omega
    · rw [if_neg hc]
      have hz : 2 * i + 1 + 0 = 2 * i + 1 := Nat.add_zero _
      rw [hz]
      by_cases hnext : 2 * i + 1 < items.length
      · have hih := ih1 hnext
        have hXY : (i + 1) * 2 ^ (searchSteps items x (2 * i + 1) + 1)
            = (2 * i + 2) * 2 ^ searchSteps items x (2 * i + 1) := by
          rw [pow_succ]; ring
        have hle : (2 * i + 2) * 2 ^ searchSteps items x (2 * i + 1)
            ≤ (2 * i + 1 + 1) * 2 ^ searchSteps items x (2 * i + 1) :=
          Nat.mul_le_mul_right _ (by omega)
        omega
      · rw [searchSteps_of_ge (by omega)]
        have : (i + 1) * 2 ^ (0 + 1) = (i + 1) * 2 := by norm_num
        omega

end StepBounds

section MaskLemmas

/-- Unfolding: bitLength of 0. -/
theorem bitLength_zero : bitLength 0 = 0 := by
  rw [bitLength]
  rfl

/-- Unfolding: bitLength of a positive number. -/
theorem bitLength_pos {n : Nat} (h : n ≠ 0) : bitLength n = bitLength (n / 2) + 1 := by
  rw [bitLength, dif_neg h]

/-- Every number is below 2 to its bit length. -/
theorem lt_two_pow_bitLength : ∀ n : Nat, n < 2 ^ bitLength n := by
  intro n
  induction n using Nat.strong_induction_on with
  | _ n ih =>
    by_cases h : n = 0
    · subst h
      rw [bitLength_zero]
      norm_num
    · rw [bitLength_pos h]
      have hih := ih (n / 2) (by omega)
      have hp : 2 ^ (bitLength (n / 2) + 1) = 2 ^ bitLength (n / 2) * 2 :=
        pow_succ 2 (bitLength (n / 2))
      omega

/-- bitLength is the least exponent covering n. -/
theorem bitLength_le_of_lt_pow : ∀ m n : Nat, n < 2 ^ m → bitLength n ≤ m := by
  intro m
  induction m with
  | zero =>
    intro n hn
    have : n = 0 := by simpa using Nat.lt_one_iff.1 (by simpa using hn)
    subst this
    rw [bitLength_zero]
  | succ m ih =>
    intro n hn
    by_cases h : n = 0
    · subst h
      rw [bitLength_zero]
      omega
    · rw [bitLength_pos h]
      have hp : 2 ^ (m + 1) = 2 ^ m * 2 := pow_succ 2 m
      have : n / 2 < 2 ^ m := by omega
      have := ih (n / 2) this
      omega

/-- The bit length of the all-ones value 2^k - 1 is k. -/
theorem bitLength_two_pow_sub_one : ∀ k : Nat, bitLength (2 ^ k - 1) = k := by
  intro k
  induction k with
  | zero => simpa using bitLength_zero
  | succ k ih =>
    have hp : 2 ^ (k + 1) = 2 ^ k * 2 := pow_succ 2 k
    have hpos : 0 < 2 ^ k := Nat.two_pow_pos k
    rw [bitLength_pos (by omega)]
    have hdiv : (2 ^ (k + 1) - 1) / 2 = 2 ^ k - 1 := by omega
    rw [hdiv, ih]

/-- For usize-representable positive n, prefetch_mask n is the all-ones
value of n's bit length. -/
theorem prefetch_mask_eq {n : Nat} (h1 : 0 < n) (h2 : n ≤ usizeMax) :
    prefetch_mask n = 2 ^ bitLength n - 1 := by
  rw [prefetch_mask, if_pos h1, Nat.shiftRight_eq_div_pow]
  have hble : bitLength n ≤ 64 := by
    apply bitLength_le_of_lt_pow
    unfold usizeMax at h2
    have : (0:Nat) < 2 ^ 64 := Nat.two_pow_pos 64
    omega
  have hsplit : (2:Nat) ^ 64 = 2 ^ (64 - bitLength n) * 2 ^ bitLength n := by
    rw [← pow_add]
    congr 1
    omega
  have hpos1 : 0 < 2 ^ (64 - bitLength n) := Nat.two_pow_pos _
  have hpos2 : 0 < 2 ^ bitLength n := Nat.two_pow_pos _
  have key : (2 ^ bitLength n - 1) * 2 ^ (64 - bitLength n) + (2 ^ (64 - bitLength n) - 1)
      = 2 ^ 64 - 1 := by
    obtain ⟨R, hR⟩ : ∃ R, 2 ^ bitLength n = R + 1 :=
      ⟨_, (Nat.succ_pred_eq_of_pos hpos2).symm⟩
    obtain ⟨Q, hQ⟩ : ∃ Q, 2 ^ (64 - bitLength n) = Q + 1 :=
      ⟨_, (Nat.succ_pred_eq_of_pos hpos1).symm⟩
    rw [hR, hQ] at hsplit ⊢
    simp only [Nat.add_sub_cancel]
    rw [hsplit]
    have e1 : (Q + 1) * (R + 1) = Q * R + Q + R + 1 := by ring
    have e2 : R * (Q + 1) = Q * R + R := by ring
    omega
  unfold usizeMax
  exact @div_mul_add_eq (2 ^ 64 - 1) (2 ^ bitLength n - 1) (64 - bitLength n)
    (2 ^ (64 - bitLength n) - 1) (Nat.sub_lt hpos1 (by omega)) key.symm

end MaskLemmas

section IntMono

/-- On a sorted integer list, the first element ≥ x+1, when both exist, is
at least the first element ≥ x. -/
theorem find?_ge_mono_some (x : Int) :
    ∀ l : List Int, l.Sorted (· ≤ ·) → ∀ v w,
      l.find? (fun u => decide (x ≤ u)) = some v →
      l.find? (fun u => decide (x + 1 ≤ u)) = some w → v ≤ w := by
  intro l
  induction l with
  | nil =>
    intro _ v w hv _
    simp at hv
  | cons b t ih =>
    intro hs v w hv hw
    by_cases hxb : x ≤ b
    · rw [find?_cons_pos' (fun u => decide (x ≤ u)) b t (decide_eq_true hxb)] at hv
      obtain rfl : b = v := by injection hv
      have hwmem : w ∈ b :: t := List.mem_of_find?_eq_some hw
      rcases List.mem_cons.1 hwmem with rfl | hwt
      · exact le_refl w
      · exact ((List.pairwise_cons.1 hs).1) w hwt
    · have hx1b : ¬ (x + 1 ≤ b) := by omega
      rw [find?_cons_neg' (fun u => decide (x ≤ u)) b t
        (decide_eq_false_iff_not.mpr hxb)] at hv
      rw [find?_cons_neg' (fun u => decide (x + 1 ≤ u)) b t
        (decide_eq_false_iff_not.mpr hx1b)] at hw
      exact ih (List.pairwise_cons.1 hs).2 v w hv hw

/-- If no element is ≥ x then none is ≥ x+1 either. -/
theorem find?_ge_mono_none (x : Int) (l : List Int)
    (hn : l.find? (fun u => decide (x ≤ u)) = none) :
    l.find? (fun u => decide (x + 1 ≤ u)) = none := by
  rw [List.find?_eq_none] at hn ⊢
  intro a ha
  have := hn a ha
  simp only [decide_eq_true_eq] at this ⊢
  omega

end IntMono

section MoreFindLemmas

variable {α : Type*} [LinearOrder α] [DecidableEq α]

/-- On a sorted list the element found by find? is minimal among the
qualifying elements. -/
theorem sorted_find?_minimal {l : List α} (hs : l.Sorted (· ≤ ·)) {x v : α}
    (hv : l.find? (fun w => decide (x ≤ w)) = some v) :
    ∀ w ∈ l, x ≤ w → v ≤ w := by
  induction l with
  | nil => simp at hv
  | cons b t ih =>
    intro w hw hxw
    by_cases hxb : x ≤ b
    · rw [find?_cons_pos' (fun u => decide (x ≤ u)) b t (decide_eq_true hxb)] at hv
      obtain rfl : b = v := by injection hv
      rcases List.mem_cons.1 hw with rfl | hwt
      · exact le_refl w
      · exact ((List.pairwise_cons.1 hs).1) w hwt
    · rw [find?_cons_neg' (fun u => decide (x ≤ u)) b t
        (decide_eq_false_iff_not.mpr hxb)] at hv
      rcases List.mem_cons.1 hw with rfl | hwt
      · exact absurd hxw hxb
      · exact ih (List.pairwise_cons.1 hs).2 hv w hwt hxw

end MoreFindLemmas

section Claims

variable {α : Type*} [LinearOrder α] [DecidableEq α]

/-- C1: for every collection built from a sorted finite sequence and every
query x, find_gte (the public entry point, instantiated at PREFETCH = true,
BRANCHLESS = true) returns the same value as a linear scan for the first
element ≥ x over the sorted input, which is the smallest stored value ≥ x;
it returns nothing exactly when no stored value is ≥ x. -/
theorem find_gte_returns_successor (sz : Nat) (input items : List α)
    (hsort : input.Sorted (· ≤ ·)) (hbuild : from_sorted_iter input = some items)
    (x : α) :
    find_gte_pub sz items x = input.find? (fun w => decide (x ≤ w)) ∧
    (∀ v, find_gte_pub sz items x = some v →
      v ∈ input ∧ x ≤ v ∧ ∀ w ∈ input, x ≤ w → v ≤ w) ∧
    (find_gte_pub sz items x = none ↔ ∀ v ∈ input, ¬ x ≤ v) := by
  have h : find_gte_pub sz items x = input.find? (fun w => decide (x ≤ w)) :=
    find_gte_eq_scan sz true input items hsort hbuild x
  refine ⟨h, ?_, ?_⟩
  · intro v hv
    rw [h] at hv
    refine ⟨List.mem_of_find?_eq_some hv, ?_, sorted_find?_minimal hsort hv⟩
    have := List.find?_some hv
    simpa using this
  · rw [h, List.find?_eq_none]
    simp

/-- C1 witness: the collection built from [1, 2, 4, 8] is the buffer
[4, 2, 8, 1] and queries behave as the scan does. -/
theorem find_gte_returns_successor_witness :
    from_sorted_iter ([1, 2, 4, 8] : List Int) = some [4, 2, 8, 1] ∧
    find_gte_pub 4 ([4, 2, 8, 1] : List Int) (3 : Int) = some 4 ∧
    find_gte_pub 4 ([4, 2, 8, 1] : List Int) (9 : Int) = none := by
  have hb : from_sorted_iter ([1, 2, 4, 8] : List Int) = some [4, 2, 8, 1] := by
    simp [from_sorted_iter, eytzinger_walk, setAt, List.range_succ, List.mapM.loop]
  refine ⟨hb, ?_, ?_⟩
  · rw [(find_gte_returns_successor 4 [1, 2, 4, 8] [4, 2, 8, 1] (by decide) hb 3).1]
    decide
  · rw [(find_gte_returns_successor 4 [1, 2, 4, 8] [4, 2, 8, 1] (by decide) hb 9).1]
    decide

/-- C2: the buffer built from a sorted input satisfies the layout
invariant: reading the buffer along the in-order traversal of the implicit
tree (root 0, children 2i+1 and 2i+2) yields exactly the original sorted
input, i.e. the k-th smallest value sits at the slot the in-order
traversal visits k-th. -/
theorem eytzinger_layout_inorder (input : List α) (hsort : input.Sorted (· ≤ ·)) :
    ∃ items : List α, from_sorted_iter input = some items ∧
      items.length = input.length ∧
      (inorderIdx items.length 0).filterMap (fun j => items.get? j) = input := by
  refine ⟨_, from_sorted_iter_eq input, built_items_length input, ?_⟩
  have h := built_inorderVals input
  unfold inorderVals at h
  exact h

/-- C2 witness at the sorted input [1, 2, 3]. -/
theorem eytzinger_layout_inorder_witness :
    ∃ items : List Int, from_sorted_iter ([1, 2, 3] : List Int) = some items ∧
      items.length = 3 ∧
      (inorderIdx items.length 0).filterMap (fun j => items.get? j) = [1, 2, 3] := by
  obtain ⟨items, h1, h2, h3⟩ := eytzinger_layout_inorder ([1, 2, 3] : List Int) (by decide)
  exact ⟨items, h1, by simpa using h2, h3⟩

/-- C3 counterexample: on the 2-element collection built from [1, 2]
(buffer [2, 1]), the query 5 exits after 1 comparison while the query 0
takes 2, so the loop does not perform exactly ceil(log2(n+1)) = 2
comparisons for every query. -/
theorem fixed_depth_counterexample :
    from_sorted_iter ([1, 2] : List Int) = some [2, 1] ∧
    searchSteps ([2, 1] : List Int) 5 0 = 1 ∧
    searchSteps ([2, 1] : List Int) 0 0 = 2 ∧
    Nat.clog 2 (2 + 1) = 2 ∧ (1 : Nat) ≠ 2 := by
  refine ⟨?_, ?_, ?_, ?_, by decide⟩
  · simp [from_sorted_iter, eytzinger_walk, setAt, List.range_succ, List.mapM.loop]
  · simp [searchSteps]
  · simp [searchSteps]
  · simp [Nat.clog]

/-- C3 amended: for every collection of n > 0 elements and every query,
the branchless loop performs between floor(log2(n+1)) and ceil(log2(n+1))
comparisons; the count equals the number of prefetch hints issued, and it
is exactly ceil(log2(n+1)) = k for every query whenever n + 1 = 2^k (a
full tree), but depends on the query otherwise. -/
theorem fixed_depth_log_bounds (sz : Nat) (items : List α) (x : α)
    (hn : 0 < items.length) :
    Nat.log 2 (items.length + 1) ≤ searchSteps items x 0 ∧
    searchSteps items x 0 ≤ Nat.clog 2 (items.length + 1) ∧
    (find_gte sz true true items x).2.length = searchSteps items x 0 ∧
    ∀ k : Nat, items.length + 1 = 2 ^ k → searchSteps items x 0 = k := by
  have hup := steps_upper items x 0
  have hlo := steps_lower items x 0 hn
  have h1 : items.length + 1 < 2 ^ (searchSteps items x 0 + 1) := by
    have hp : 2 ^ (searchSteps items x 0 + 1) = 2 ^ searchSteps items x 0 * 2 :=
      pow_succ 2 _
    have h02 : (0 + 2) * 2 ^ searchSteps items x 0 = 2 ^ searchSteps items x 0 * 2 := by
      ring
    omega
  have hlog : Nat.log 2 (items.length + 1) ≤ searchSteps items x 0 := by
    have := Nat.log_lt_of_lt_pow (by omega) h1
    omega
  have h2 : 2 ^ searchSteps items x 0 ≤ 2 * items.length + 1 := by
    have h01 : (0 + 1) * 2 ^ searchSteps items x 0 = 2 ^ searchSteps items x 0 := by
      ring
    omega
  have hclog : searchSteps items x 0 ≤ Nat.clog 2 (items.length + 1) := by
    have hcl : items.length + 1 ≤ 2 ^ Nat.clog 2 (items.length + 1) :=
      Nat.le_pow_clog (by omega) _
    have hp : 2 ^ (Nat.clog 2 (items.length + 1) + 1)
        = 2 ^ Nat.clog 2 (items.length + 1) * 2 := pow_succ 2 _
    have hlt : 2 ^ searchSteps items x 0 < 2 ^ (Nat.clog 2 (items.length + 1) + 1) := by
      omega
    have := (Nat.pow_lt_pow_iff_right (by omega)).1 hlt
    omega
  refine ⟨hlog, hclog, ?_, ?_⟩
  · rw [find_gte_snd, findLoop_trace_length sz items x 0 []]
    simp
  · intro k hk
    rw [hk] at hlog hclog
    rw [Nat.log_pow (by omega) k] at hlog
    rw [Nat.clog_pow 2 k (by omega)] at hclog
    omega

/-- C3 witness of the amended bounds on the collection built from [1, 2]. -/
theorem fixed_depth_log_bounds_witness :
    Nat.log 2 (([2, 1] : List Int).length + 1) ≤ searchSteps ([2, 1] : List Int) 5 0 ∧
    searchSteps ([2, 1] : List Int) 5 0 ≤ Nat.clog 2 (([2, 1] : List Int).length + 1) ∧
    (find_gte 4 true true ([2, 1] : List Int) 5).2.length
      = searchSteps ([2, 1] : List Int) 5 0 ∧
    ∀ k : Nat, ([2, 1] : List Int).length + 1 = 2 ^ k →
      searchSteps ([2, 1] : List Int) 5 0 = k :=
  fixed_depth_log_bounds 4 ([2, 1] : List Int) 5 (by decide)

/-- C4: every query against the empty collection returns nothing; the empty
result is delivered through the Option return value of find_gte (there is
no other outcome channel in its type), for every variant. -/
theorem find_gte_empty_none (sz : Nat) (P B : Bool) (x : α) :
    from_sorted_iter ([] : List α) = some [] ∧
    (find_gte sz P B ([] : List α) x).1 = none := by
  constructor
  · rw [from_sorted_iter_eq]
    rfl
  · rw [find_gte_fst]
    rw [findLoop, dif_neg (by simp)]
    simp [trailingOnes]

end Claims

section Claims2

variable {α : Type*} [LinearOrder α] [DecidableEq α]

/-- C5: prefetch_mask n is the smallest value of the form 2^k - 1 that is
≥ n (0 when n = 0), and it matches the documented table, including at the
maximum representable index. -/
theorem prefetch_mask_smallest :
    (∀ n : Nat, n ≤ usizeMax →
      n ≤ prefetch_mask n ∧ (∃ k, prefetch_mask n = 2 ^ k - 1) ∧
      ∀ m : Nat, n ≤ 2 ^ m - 1 → prefetch_mask n ≤ 2 ^ m - 1) ∧
    prefetch_mask 0 = 0 ∧ prefetch_mask 1 = 1 ∧ prefetch_mask 2 = 3 ∧
    prefetch_mask 3 = 3 ∧ prefetch_mask 4 = 7 ∧
    prefetch_mask usizeMax = usizeMax := by
  have hmask0 : prefetch_mask 0 = 0 := by rw [prefetch_mask, if_neg (by omega)]
  refine ⟨?_, hmask0, ?_, ?_, ?_, ?_, ?_⟩
  · intro n hn
    by_cases h0 : n = 0
    · subst h0
      rw [hmask0]
      exact ⟨le_refl 0, ⟨0, by norm_num⟩, fun m _ => Nat.zero_le _⟩
    · rw [prefetch_mask_eq (by omega) hn]
      have hlt := lt_two_pow_bitLength n
      refine ⟨by omega, ⟨bitLength n, rfl⟩, ?_⟩
      intro m hm
      have hpm : 0 < 2 ^ m := Nat.two_pow_pos m
      have hble : bitLength n ≤ m := bitLength_le_of_lt_pow m n (by omega)
      have := Nat.pow_le_pow_right (show 1 ≤ 2 by omega) hble
      omega
  · have hb : bitLength 1 = 1 := by simp [bitLength]
    rw [prefetch_mask_eq (by norm_num) (by norm_num [usizeMax]), hb]
    norm_num
  · have hb : bitLength 2 = 2 := by simp [bitLength]
    rw [prefetch_mask_eq (by norm_num) (by norm_num [usizeMax]), hb]
    norm_num
  · have hb : bitLength 3 = 2 := by simp [bitLength]
    rw [prefetch_mask_eq (by norm_num) (by norm_num [usizeMax]), hb]
    norm_num
  · have hb : bitLength 4 = 3 := by simp [bitLength]
    rw [prefetch_mask_eq (by norm_num) (by norm_num [usizeMax]), hb]
    norm_num
  · have hpos : 0 < usizeMax := by
      unfold usizeMax
      have hp : (2:Nat) ^ 64 = 2 ^ 63 * 2 := pow_succ 2 63
      have := Nat.two_pow_pos 63
      omega
    have hbl : bitLength usizeMax = 64 := bitLength_two_pow_sub_one 64
    calc prefetch_mask usizeMax
        = 2 ^ bitLength usizeMax - 1 := prefetch_mask_eq hpos (le_refl _)
      _ = 2 ^ 64 - 1 := by rw [hbl]
      _ = usizeMax := rfl

/-- C5 witness at n = 5: the mask is at least 5, has all-ones form, and is
minimal among all-ones values covering 5. -/
theorem prefetch_mask_smallest_witness :
    5 ≤ prefetch_mask 5 ∧ prefetch_mask 5 ≤ 2 ^ 3 - 1 := by
  have h := prefetch_mask_smallest.1 5 (by norm_num [usizeMax])
  exact ⟨h.1, h.2.2 3 (by norm_num)⟩

/-- C6 (code bug): find_gte evaluates 2usize.pow(64) on every call; its
mathematical value 2^64 exceeds usize::MAX, so the arithmetic does not
stay within the representable range (it panics under overflow checks and
wraps in release).  Under wrapping semantics mul = 0, mul_off = usize::MAX,
and the in-loop addition mul_off + cachline_off overflows again (shown for
size_of T = 4, i.e. u32). -/
theorem find_gte_pow_overflow :
    usizeMax < 2 ^ 64 ∧
    mulConst = 2 ^ 64 % 2 ^ 64 ∧ mulConst = 0 ∧
    mulOffConst = usizeMax ∧
    usizeMax < mulOffConst + cachlineOff 4 ∧
    prefetchIndex 4 2 1 = min (cachlineOff 4 - 1) 1 := by
  refine ⟨by norm_num [usizeMax], rfl, by norm_num [mulConst], ?_, ?_, ?_⟩
  · norm_num [mulOffConst, usizeMax]
  · norm_num [mulOffConst, usizeMax, cachlineOff]
  · norm_num [prefetchIndex, mulConst, mulOffConst, cachlineOff]

/-- C7 counterexample: for u32 elements (size 4), at loop index 1 in a
100-element collection the spec's address MULTIPLIER * i + OFFSET is 40
(under either clamp), but the live code computes index 7. -/
theorem prefetch_hint_counterexample :
    prefetchIndex 4 100 1 = 7 ∧
    MULTIPLIER 4 = 16 ∧ OFFSET 4 = 24 ∧
    min (MULTIPLIER 4 * 1 + OFFSET 4) (100 - 1) = 40 ∧
    (MULTIPLIER 4 * 1 + OFFSET 4) &&& prefetch_mask 100 = 40 ∧
    (7 : Nat) ≠ 40 := by
  have hbl : bitLength 100 = 7 := by simp [bitLength]
  have hm : prefetch_mask 100 = 127 := by
    rw [prefetch_mask, if_pos (by norm_num), hbl, Nat.shiftRight_eq_div_pow]
    norm_num [usizeMax]
  refine ⟨?_, rfl, rfl, by decide, ?_, by decide⟩
  · norm_num [prefetchIndex, mulConst, mulOffConst, cachlineOff]
  · rw [hm]
    decide

/-- C7 amended: the constants MULTIPLIER = 64 / size and OFFSET =
MULTIPLIER + MULTIPLIER / 2 are declared as the spec says, but the live
prefetch address ignores them: with the wrapped constants mul = 0 and
mul_off = usize::MAX, the hinted index is min (multiplier/2 - 1) (len - 1)
for every loop index i (element sizes up to 32 bytes). -/
theorem prefetch_hint_amended (sz : Nat) (h1 : 0 < sz) (h2 : sz ≤ 32)
    (len i : Nat) :
    prefetchIndex sz len i = min (cachlineOff sz - 1) (len - 1) ∧
    MULTIPLIER sz = 64 / sz ∧
    OFFSET sz = MULTIPLIER sz + MULTIPLIER sz / 2 ∧
    cachlineOff sz = MULTIPLIER sz / 2 := by
  have hc1 : 1 ≤ cachlineOff sz := by
    show (1:Nat) ≤ 32 / sz
    exact (Nat.one_le_div_iff h1).2 (by omega)
  have hc2 : cachlineOff sz ≤ 32 := by
    show 64 / 2 / sz ≤ 32
    calc 64 / 2 / sz ≤ 64 / 2 := Nat.div_le_self _ _
      _ = 32 := by norm_num
  refine ⟨?_, rfl, rfl, ?_⟩
  · unfold prefetchIndex mulConst mulOffConst
    congr 1
    norm_num
    omega
  · show 64 / 2 / sz = 64 / sz / 2
    rw [Nat.div_div_eq_div_mul, Nat.div_div_eq_div_mul, Nat.mul_comm]

/-- C7 amended witness for u32 (size 4) at len = 100, i = 1. -/
theorem prefetch_hint_amended_witness :
    prefetchIndex 4 100 1 = min (cachlineOff 4 - 1) (100 - 1) ∧
    MULTIPLIER 4 = 64 / 4 ∧
    OFFSET 4 = MULTIPLIER 4 + MULTIPLIER 4 / 2 ∧
    cachlineOff 4 = MULTIPLIER 4 / 2 :=
  prefetch_hint_amended 4 (by decide) (by decide) 100 1

/-- C8: over an integer collection built from a sorted input, the answer
of find_gte is non-decreasing in the query: if find_gte x returns nothing
then so does find_gte (x+1), and when both return values they are ordered. -/
theorem find_gte_monotone (sz : Nat) (input items : List Int)
    (hsort : input.Sorted (· ≤ ·)) (hbuild : from_sorted_iter input = some items)
    (x : Int) :
    ((find_gte sz true true items x).1 = none →
      (find_gte sz true true items (x + 1)).1 = none) ∧
    ∀ v w, (find_gte sz true true items x).1 = some v →
      (find_gte sz true true items (x + 1)).1 = some w → v ≤ w := by
  have hx := find_gte_eq_scan sz true input items hsort hbuild x
  have hx1 := find_gte_eq_scan sz true input items hsort hbuild (x + 1)
  constructor
  · intro hn
    rw [hx] at hn
    rw [hx1]
    exact find?_ge_mono_none x input hn
  · intro v w hv hw
    rw [hx] at hv
    rw [hx1] at hw
    exact find?_ge_mono_some x input hsort v w hv hw

/-- C8 witness on the collection built from [1, 2, 4]. -/
theorem find_gte_monotone_witness :
    from_sorted_iter ([1, 2, 4] : List Int) = some [2, 1, 4] ∧
    (find_gte 4 true true ([2, 1, 4] : List Int) (2 : Int)).1 = some 2 ∧
    (find_gte 4 true true ([2, 1, 4] : List Int) (3 : Int)).1 = some 4 ∧
    (2 : Int) ≤ 4 := by
  have hb : from_sorted_iter ([1, 2, 4] : List Int) = some [2, 1, 4] := by
    simp [from_sorted_iter, eytzinger_walk, setAt, List.range_succ, List.mapM.loop]
  have h2 : (find_gte 4 true true ([2, 1, 4] : List Int) (2 : Int)).1 = some 2 := by
    rw [find_gte_eq_scan 4 true [1, 2, 4] [2, 1, 4] (by decide) hb 2]
    decide
  have h3 : (find_gte 4 true true ([2, 1, 4] : List Int) (3 : Int)).1 = some 4 := by
    rw [find_gte_eq_scan 4 true [1, 2, 4] [2, 1, 4] (by decide) hb 3]
    decide
  exact ⟨hb, h2, h3,
    (find_gte_monotone 4 [1, 2, 4] [2, 1, 4] (by decide) hb 2).2 2 4 h2 h3⟩

/-- C9: prefetching never affects the query result: for every collection
and query, find_gte with PREFETCH = true returns exactly the same answer
as find_gte with PREFETCH = false (only the issued hints differ). -/
theorem prefetch_no_effect (sz : Nat) (B : Bool) (items : List α) (x : α) :
    (find_gte sz true B items x).1 = (find_gte sz false B items x).1 := by
  rw [find_gte_fst, find_gte_fst, findLoop_fst_irrel sz B items x 0 true false [] []]

/-- C10: over a collection built from a sorted input, the early-exit
variant (BRANCHLESS = false) returns a result exactly when the full-walk
branchless variant does, with equal values. -/
theorem early_exit_equiv (sz : Nat) (P : Bool) (input items : List α)
    (hsort : input.Sorted (· ≤ ·)) (hbuild : from_sorted_iter input = some items)
    (x : α) :
    (find_gte sz P false items x).1 = (find_gte sz P true items x).1 := by
  rcases findLoop_early_exit sz P items x 0 [] with heq | ⟨hin, hmem⟩
  · rw [find_gte_fst, find_gte_fst, heq]
  · rw [find_gte_fst, hin]
    simp only []
    rw [find_gte_eq_scan sz P input items hsort hbuild x]
    have hx : x ∈ input := (built_mem_iff input items hbuild x).1 hmem
    rw [sorted_find?_self hsort hx]

/-- C10 witness on the collection built from [1, 2, 4], query 2 (an exact
hit, where the early exit actually fires). -/
theorem early_exit_equiv_witness :
    (find_gte 4 true false ([2, 1, 4] : List Int) (2 : Int)).1
      = (find_gte 4 true true ([2, 1, 4] : List Int) (2 : Int)).1 := by
  have hb : from_sorted_iter ([1, 2, 4] : List Int) = some [2, 1, 4] := by
    simp [from_sorted_iter, eytzinger_walk, setAt, List.range_succ, List.mapM.loop]
  exact early_exit_equiv 4 true [1, 2, 4] [2, 1, 4] (by decide) hb 2

end Claims2
